import Mathlib

/-
  Verification of the merkletree repository (Go) against its specification.

  The development shallowly embeds the Go sources:
    * the Merkle-tree engine and the length-prefix bucket code
      (package file containing NewTree .. MakeTree, here the "LP" variant),
    * the newline-delimited bucket code in bucketpools.go (namespace NLV).

  Machine integers: Go byte slices are modelled as `List Nat`; the 64-bit
  little-endian length frames use explicit `% 256` digit arithmetic.
  The sha256 hash resolved through the registry (GetHashStrategies, the one
  registered strategy "sha256") is abstracted as an arbitrary function
  `H : Bytes → Bytes`; every theorem that depends on hashing quantifies over
  `H`, and concrete evaluations use the injective stand-in `Hc`.
  Fallible Go calls return the `Res` type below; a Go runtime panic (failed
  type assertion) is the `Res.panic` outcome.
-/

namespace Merkletree

abbrev Bytes := List Nat

/-- Outcome of a fallible Go call: normal value, returned `error`, or a
runtime panic (e.g. a failed type assertion). -/
inductive Res (α : Type) where
  | ok (a : α)
  | err (e : String)
  | panic
  deriving DecidableEq, Repr

/-- StorageBucket (length-prefix variant): Content, Topic, HashRate, Size,
ID, Timestamp.  Durations and times are modelled as `Nat`. -/
structure SBucket where
  content : Bytes
  topic : String
  hashRate : Nat
  size : Nat
  id : String
  timestamp : Nat
  deriving DecidableEq, Repr

/-- The Content interface.  The closed variants mirror the implementors in
the source: `ByteContent`, `StorageBucket` — split into a value
(`storageBucket`) and a pointer (`storageBucketRef`) form, since the Go
type assertions distinguish `StorageBucket` from `*StorageBucket` — and
`generic`, standing for an arbitrary further implementor with a fixed
(deterministic) CalculateHash outcome and key-based equality. -/
inductive ContentS where
  | byteContent (b : Bytes)
  | storageBucket (sb : SBucket)
  | storageBucketRef (sb : SBucket)
  | generic (hashRes : Res Bytes) (key : Nat)
  deriving DecidableEq, Repr

/-- CalculateHash, dispatched on the receiver's dynamic type.
`ByteContent.CalculateHash` returns the stored bytes; the StorageBucket
variants hash their content with sha256 (the abstract `H`). -/
def ContentS.calculateHash (H : Bytes → Bytes) : ContentS → Res Bytes
  | .byteContent b => .ok b
  | .storageBucket sb => .ok (H sb.content)
  | .storageBucketRef sb => .ok (H sb.content)
  | .generic h _ => h

/-- Field comparison of StorageBucket.Equals (length-prefix variant):
Content, Size, ID, Topic, HashRate are compared; Timestamp is not. -/
def sbFieldsEqual (a b : SBucket) : Bool :=
  a.content = b.content ∧ a.size = b.size ∧ a.id = b.id ∧
    a.topic = b.topic ∧ a.hashRate = b.hashRate

/-- Equals, dispatched on the receiver.  `ByteContent.Equals` type-asserts
its argument with `other.(ByteContent)`; `StorageBucket.Equals`
(length-prefix variant) asserts `other.(*StorageBucket)`: an argument of
any other dynamic type makes the non-comma-ok assertion panic. -/
def ContentS.equals : ContentS → ContentS → Res Bool
  | .byteContent b, .byteContent b' => .ok (b = b')
  | .byteContent _, _ => .panic
  | .storageBucket sb, .storageBucketRef sb' => .ok (sbFieldsEqual sb sb')
  | .storageBucket _, _ => .panic
  | .storageBucketRef sb, .storageBucketRef sb' => .ok (sbFieldsEqual sb sb')
  | .storageBucketRef _, _ => .panic
  | .generic _ k, .generic _ k' => .ok (k = k')
  | .generic _ _, _ => .panic

/-- A tree node.  `leafN` carries the cached hash, the content and the Dup
flag; `inner` carries the cached hash and both children.  The Go back
references (`tree`, `parent`) are represented by the level structure of
`MerkleTreeS` below. -/
inductive NodeS where
  | leafN (hash : Bytes) (c : ContentS) (dup : Bool)
  | inner (hash : Bytes) (left right : NodeS)
  deriving DecidableEq, Repr

/-- The cached Hash field. -/
def NodeS.hash : NodeS → Bytes
  | .leafN h _ _ => h
  | .inner h _ _ => h

/-- The content field C (nil, here a junk value, on internal nodes; the
tree code only reads C of leaf nodes). -/
def NodeS.content : NodeS → ContentS
  | .leafN _ c _ => c
  | .inner _ _ _ => .byteContent []

/-- The Dup flag (always false on internal nodes). -/
def NodeS.dupOf : NodeS → Bool
  | .leafN _ _ d => d
  | .inner _ _ _ => false

/-- The Left child; on a leaf the Go pointer is nil and dereferencing it
would crash — the walks below only ever take children of internal nodes,
so the leaf case returns junk (the node itself). -/
def NodeS.leftOf : NodeS → NodeS
  | .leafN h c d => .leafN h c d
  | .inner _ l _ => l

/-- The Right child (leaf case: junk, see `NodeS.leftOf`). -/
def NodeS.rightOf : NodeS → NodeS
  | .leafN h c d => .leafN h c d
  | .inner _ _ r => r

/-- Leaf flag. -/
def NodeS.isLeaf : NodeS → Bool
  | .leafN _ _ _ => true
  | .inner _ _ _ => false

/-- Default node used for out-of-range list indexing (never reached on
well-formed trees). -/
def dfltNode : NodeS := .leafN [] (.byteContent []) false

/-- The parent node built for the pair (left, right) in buildIntermediate:
its hash is `H(left.Hash ++ right.Hash)`. -/
def mkParent (H : Bytes → Bytes) (l r : NodeS) : NodeS :=
  .inner (H (l.hash ++ r.hash)) l r

/-- One level-reduction step of buildIntermediate: consecutive pairs, the
last node of an odd-length level paired with itself (`right = i` when
`i+1 == len(nl)`). -/
def pairUp (H : Bytes → Bytes) : List NodeS → List NodeS
  | [] => []
  | [a] => [mkParent H a a]
  | a :: b :: rest => mkParent H a b :: pairUp H rest

theorem pairUp_length (H : Bytes → Bytes) :
    ∀ nl : List NodeS, (pairUp H nl).length = (nl.length + 1) / 2
  | [] => rfl
  | [_] => by simp [pairUp]
  | _ :: _ :: rest => by
    simp [pairUp, pairUp_length H rest]
    omega

/-- buildIntermediate: reduces a level to the root by repeated `pairUp`.
The Go function returns only the root node and records the level structure
through the `parent` pointers it assigns (`nl[i].parent = nodes[i/2]`);
here the whole list of levels is returned — level 0 is the input, the last
level is the singleton holding the root (`rootOf` below extracts the Go
return value).  On a level of length `<= 1` (unreachable: the leaf level
is always even and non-empty) the recursion stops instead of looping. -/
def buildIntermediate (H : Bytes → Bytes) (nl : List NodeS) :
    List (List NodeS) :=
  if nl.length ≤ 1 then [nl]
  else nl :: buildIntermediate H (pairUp H nl)
termination_by nl.length
decreasing_by
  simp only [pairUp_length]
  omega

/-- The root node at the far end of the level structure. -/
def rootOf (lv : List (List NodeS)) : NodeS :=
  (lv.getLastD []).headD dfltNode

/-- The leaf-building loop of buildWithContent: hash each content, abort on
the first CalculateHash failure. -/
def buildLeafs (H : Bytes → Bytes) : List ContentS → Res (List NodeS)
  | [] => .ok []
  | c :: cs =>
    match c.calculateHash H with
    | .ok h =>
      match buildLeafs H cs with
      | .ok ns => .ok (.leafN h c false :: ns)
      | .err e => .err e
      | .panic => .panic
    | .err e => .err e
    | .panic => .panic

/-- The odd-count duplication step of buildWithContent: clone the last
leaf's hash and content into a node flagged Dup. -/
def addDup (ns : List NodeS) : List NodeS :=
  if ns.length % 2 = 1 then
    ns ++ [.leafN (ns.getLastD dfltNode).hash (ns.getLastD dfltNode).content true]
  else ns

/-- buildWithContent: error on empty input, build leaves (propagating hash
failures), append the duplicate if odd, reduce.  Returns the leaf list and
the level structure (whose root is the Go root return value). -/
def buildWithContent (H : Bytes → Bytes) (cs : List ContentS) :
    Res (List NodeS × List (List NodeS)) :=
  if cs = [] then .err "error: cannot construct tree with no content"
  else
    match buildLeafs H cs with
    | .ok ls => .ok (addDup ls, buildIntermediate H (addDup ls))
    | .err e => .err e
    | .panic => .panic

/-- MerkleTree: Root, MerkleRoot, Leafs; `levels` materialises the parent
pointer graph (the HashStrategy field is abstracted by the `H` parameter
of every operation — "sha256" is the only registered strategy). -/
structure MerkleTreeS where
  root : NodeS
  merkleRoot : Bytes
  leafs : List NodeS
  levels : List (List NodeS)
  deriving DecidableEq, Repr

/-- NewTree. -/
def NewTree (H : Bytes → Bytes) (cs : List ContentS) : Res MerkleTreeS :=
  match buildWithContent H cs with
  | .ok (ls, lv) =>
    .ok { root := rootOf lv, merkleRoot := (rootOf lv).hash,
          leafs := ls, levels := lv }
  | .err e => .err e
  | .panic => .panic

/-- verifyNode: recompute a node's hash bottom-up strictly from leaf
content.  The Go code descends into the Right child first, so a failure on
the right surfaces before one on the left. -/
def verifyNode (H : Bytes → Bytes) : NodeS → Res Bytes
  | .leafN _ c _ => c.calculateHash H
  | .inner _ l r =>
    match verifyNode H r with
    | .ok rb =>
      match verifyNode H l with
      | .ok lb => .ok (H (lb ++ rb))
      | .err e => .err e
      | .panic => .panic
    | .err e => .err e
    | .panic => .panic

/-- VerifyTree: compare the recomputed root hash with the stored
MerkleRoot. -/
def VerifyTree (H : Bytes → Bytes) (m : MerkleTreeS) : Res Bool :=
  match verifyNode H m.root with
  | .ok v => if m.merkleRoot = v then .ok true else .ok false
  | .err e => .err e
  | .panic => .panic

/-- calculateNodeHash: a leaf re-hashes its content; an internal node
hashes the concatenation of its children's cached hashes. -/
def calculateNodeHash (H : Bytes → Bytes) : NodeS → Res Bytes
  | .leafN _ c _ => c.calculateHash H
  | .inner _ l r => .ok (H (l.hash ++ r.hash))

/-- The leaf-scanning loop shared (textually duplicated in Go) by
GetMerklePath and VerifyContent: index of the first leaf whose content
Equals the argument; an Equals error or panic aborts the scan. -/
def findFirstEqAux : List NodeS → ContentS → Nat → Res (Option Nat)
  | [], _, _ => .ok none
  | n :: rest, x, i =>
    match n.content.equals x with
    | .ok true => .ok (some i)
    | .ok false => findFirstEqAux rest x (i + 1)
    | .err e => .err e
    | .panic => .panic

def findFirstEq (ls : List NodeS) (x : ContentS) : Res (Option Nat) :=
  findFirstEqAux ls x 0

/-- The parent walk of GetMerklePath.  `above` is the list of levels above
the current node, `j` the current node's index in its own level: its
parent is the node at index `j/2` of the next level (buildIntermediate
assigns `nl[i].parent = nodes[i/2]` for both members of pair `i`).  The
code compares the parent's Left child hash with the current hash to decide
the side: equal → record (Right.Hash, 1), else → record (Left.Hash, 0). -/
def walkUp (cur : NodeS) (above : List (List NodeS)) (j : Nat) :
    List Bytes × List Nat :=
  match above with
  | [] => ([], [])
  | lvl :: rest =>
    let p := lvl.getD (j / 2) dfltNode
    let tailPath := walkUp p rest (j / 2)
    if p.leftOf.hash = cur.hash then
      (p.rightOf.hash :: tailPath.1, 1 :: tailPath.2)
    else
      (p.leftOf.hash :: tailPath.1, 0 :: tailPath.2)

/-- GetMerklePath: scan the leaf list for the first Equals match; if none,
return empty path and no error; otherwise walk the parent chain to the
root collecting sibling hashes and side indicators. -/
def GetMerklePath (m : MerkleTreeS) (x : ContentS) :
    Res (List Bytes × List Nat) :=
  match findFirstEq m.leafs x with
  | .ok (some j) => .ok (walkUp (m.leafs.getD j dfltNode) m.levels.tail j)
  | .ok none => .ok ([], [])
  | .err e => .err e
  | .panic => .panic

/-- The ancestor loop of VerifyContent: at each ancestor recompute
`H(calculateNodeHash(Left) ++ calculateNodeHash(Right))` (Right first, as
in the source) and compare with the ancestor's stored hash; first mismatch
returns false. -/
def checkAncestors (H : Bytes → Bytes) :
    List (List NodeS) → Nat → Res Bool
  | [], _ => .ok true
  | lvl :: above, j =>
    let p := lvl.getD (j / 2) dfltNode
    match calculateNodeHash H p.rightOf with
    | .ok rb =>
      match calculateNodeHash H p.leftOf with
      | .ok lb =>
        if H (lb ++ rb) = p.hash then checkAncestors H above (j / 2)
        else .ok false
      | .err e => .err e
      | .panic => .panic
    | .err e => .err e
    | .panic => .panic

/-- VerifyContent: false (no error) if no leaf matches; otherwise check
every ancestor of the first matching leaf. -/
def VerifyContent (H : Bytes → Bytes) (m : MerkleTreeS) (x : ContentS) :
    Res Bool :=
  match findFirstEq m.leafs x with
  | .ok (some j) => checkAncestors H m.levels.tail j
  | .ok none => .ok false
  | .err e => .err e
  | .panic => .panic

/-- Modelled from the spec (§4.4 wording of the claim, not from the code):
at each ancestor recompute `H(left-child-cached-hash ++
right-child-cached-hash)` using the *cached* Hash field of each child.
Used only to compare the claimed behaviour against `checkAncestors`. -/
def checkAncestorsCached (H : Bytes → Bytes) :
    List (List NodeS) → Nat → Bool
  | [], _ => true
  | lvl :: above, j =>
    let p := lvl.getD (j / 2) dfltNode
    if H (p.leftOf.hash ++ p.rightOf.hash) = p.hash then
      checkAncestorsCached H above (j / 2)
    else false

/-- Modelled from the spec: VerifyContent as the claim describes it, with
the cached-hash ancestor check of `checkAncestorsCached`. -/
def VerifyContentCached (H : Bytes → Bytes) (m : MerkleTreeS)
    (x : ContentS) : Res Bool :=
  match findFirstEq m.leafs x with
  | .ok (some j) => .ok (checkAncestorsCached H m.levels.tail j)
  | .ok none => .ok false
  | .err e => .err e
  | .panic => .panic

/-- RebuildTree: collect the content of every node in Leafs (the Dup flag
is not consulted), rebuild, and swap the Root/Leafs/MerkleRoot fields only
on success.  The pair returned is (Go error result, tree state after the
call). -/
def RebuildTree (H : Bytes → Bytes) (m : MerkleTreeS) :
    Res Unit × MerkleTreeS :=
  match buildWithContent H (m.leafs.map NodeS.content) with
  | .ok (ls, lv) =>
    (.ok (), { root := rootOf lv, merkleRoot := (rootOf lv).hash,
               leafs := ls, levels := lv })
  | .err e => (.err e, m)
  | .panic => (.panic, m)

/-- RebuildTreeWith: rebuild from the given contents, swapping state only
on success. -/
def RebuildTreeWith (H : Bytes → Bytes) (cs : List ContentS)
    (m : MerkleTreeS) : Res Unit × MerkleTreeS :=
  match buildWithContent H cs with
  | .ok (ls, lv) =>
    (.ok (), { root := rootOf lv, merkleRoot := (rootOf lv).hash,
               leafs := ls, levels := lv })
  | .err e => (.err e, m)
  | .panic => (.panic, m)

/-- The content-collecting loop of ExtendTree: contents of the leaves whose
Dup flag is unset, in leaf order. -/
def collectNonDup : List NodeS → List ContentS
  | [] => []
  | n :: rest =>
    if n.dupOf then collectNonDup rest
    else n.content :: collectNonDup rest

/-- ExtendTree: append the new contents to the non-duplicate leaf contents
and rebuild. -/
def ExtendTree (H : Bytes → Bytes) (cs : List ContentS)
    (m : MerkleTreeS) : Res Unit × MerkleTreeS :=
  RebuildTreeWith H (collectNonDup m.leafs ++ cs) m

/-- The external verifier's fold over a Merkle path (claim C2): indicator 1
means the sibling is the right child (`H (current ++ sibling)`), 0 means
it is the left child (`H (sibling ++ current)`). -/
def foldPath (H : Bytes → Bytes) (h0 : Bytes) :
    List Bytes → List Nat → Bytes
  | s :: ps, i :: is =>
    foldPath H (if i = 1 then H (h0 ++ s) else H (s ++ h0)) ps is
  | _, _ => h0

/-- The chain of ancestors visited by the VerifyContent walk starting from
leaf index `j` (levels above the leaf level). -/
def ancestorChain : List (List NodeS) → Nat → List NodeS
  | [], _ => []
  | lvl :: above, j =>
    lvl.getD (j / 2) dfltNode :: ancestorChain above (j / 2)

/-- Total value of calculateNodeHash (junk on failure). -/
def cnhD (H : Bytes → Bytes) (n : NodeS) : Bytes :=
  match calculateNodeHash H n with
  | .ok v => v
  | _ => []

/-- CalculateHash of this content succeeds. -/
def hashOkB (H : Bytes → Bytes) (c : ContentS) : Bool :=
  match c.calculateHash H with
  | .ok _ => true
  | _ => false

/-- Every leaf content inside this node (itself included) hashes
successfully. -/
def nodeContentsOk (H : Bytes → Bytes) : NodeS → Bool
  | .leafN _ c _ => hashOkB H c
  | .inner _ l r => nodeContentsOk H l && nodeContentsOk H r

/-- Bucket: a mutable fixed-capacity buffer (Content), its Topic, HashRate,
size, ID, Timestamp and the used flag. -/
structure Bucket where
  content : Bytes
  topic : String
  hashRate : Nat
  size : Nat
  id : String
  timestamp : Nat
  used : Bool
  deriving DecidableEq, Repr

/-- BucketPool: the bounded channel is a FIFO queue (head = next value a
receive obtains) together with its capacity. -/
structure BucketPool where
  c : List Bucket
  cap : Nat
  width : Nat
  topic : String
  deriving DecidableEq, Repr

/-- NewBucket: an empty buffer of the given capacity and topic. -/
def NewBucket (size : Nat) (topic : String) : Bucket :=
  { content := [], topic := topic, hashRate := 0, size := size,
    id := "", timestamp := 0, used := false }

/-- NewBucketPool: a channel of capacity maxNum pre-filled with maxNum
empty buckets. -/
def NewBucketPool (maxNum size : Nat) (topic : String) : BucketPool :=
  { c := List.replicate maxNum (NewBucket size topic), cap := maxNum,
    width := size, topic := topic }

/-- Len: number of buckets currently in the pool's channel. -/
def BucketPool.len (bp : BucketPool) : Nat := bp.c.length

def exhaustedMsg : String := "size error. pool is exhausted"

/-- Get: non-blocking receive.  Empty channel → fresh bucket plus the
exhaustion error; a received used bucket is pushed back (there is room:
one slot was just freed) and a fresh bucket plus the exhaustion error is
returned; otherwise the received bucket with no error. -/
def BucketPool.get (bp : BucketPool) :
    (Bucket × Option String) × BucketPool :=
  match bp.c with
  | [] => ((NewBucket bp.width bp.topic, some exhaustedMsg), bp)
  | b :: rest =>
    if b.used then
      ((NewBucket bp.width bp.topic, some exhaustedMsg),
       { bp with c := rest ++ [b] })
    else
      ((b, none), { bp with c := rest })

/-- Put: reject on topic mismatch; otherwise a non-blocking send that
succeeds exactly when the channel has room. -/
def BucketPool.put (bp : BucketPool) (b : Bucket) : Bool × BucketPool :=
  if bp.topic ≠ b.topic then (false, bp)
  else if bp.c.length < bp.cap then (true, { bp with c := bp.c ++ [b] })
  else (false, bp)

/-- A single-threaded pool interaction step (claim C10). -/
inductive PoolOp where
  | get
  | put (b : Bucket)

def applyOp (bp : BucketPool) : PoolOp → BucketPool
  | .get => (bp.get).2
  | .put b => (bp.put b).2

def applyOps (bp : BucketPool) (ops : List PoolOp) : BucketPool :=
  ops.foldl applyOp bp

/-- Little-endian base-256 digits, `k` bytes (binary.LittleEndian.PutUint64
is `toLEBytes 8`). -/
def toLEBytes : Nat → Nat → Bytes
  | 0, _ => []
  | k + 1, n => n % 256 :: toLEBytes k (n / 256)

def toLE8 (n : Nat) : Bytes := toLEBytes 8 n

/-- Value of a little-endian byte string (missing high bytes read as the
zeros Go's `make` put in the prefix buffer). -/
def fromLE (l : Bytes) : Nat :=
  l.foldr (fun b acc => b + 256 * acc) 0

/-- `buf.Read` into a zero-initialised slice of length `n`: the available
bytes followed by the untouched zeros. -/
def padTo (n : Nat) (l : Bytes) : Bytes :=
  l ++ List.replicate (n - l.length) 0

/-- WriteContent (length-prefix variant): refuse if the 8-byte frame plus
the payload does not fit; otherwise append frame and payload and mark the
bucket used. -/
def WriteContent (b : Bucket) (bs : Bytes) : Bool × Bucket :=
  if b.content.length + bs.length + 8 > b.size then (false, b)
  else
    (true,
     { b with
       content := b.content ++ toLE8 bs.length ++ bs,
       used := true })

/-- The parsing loop of ReadContent (length-prefix variant): read an 8-byte
little-endian length; stop on zero, otherwise read that many bytes (short
reads leave the zero padding of `make`) and continue. -/
def readFrames (buf : Bytes) : List Bytes :=
  if h : fromLE (buf.take 8) = 0 then []
  else
    padTo (fromLE (buf.take 8)) ((buf.drop 8).take (fromLE (buf.take 8))) ::
      readFrames ((buf.drop 8).drop (fromLE (buf.take 8)))
termination_by buf.length
decreasing_by
  have hne : 1 ≤ buf.length := by
    cases buf with
    | nil => exact absurd rfl h
    | cons a l => simp
  simp only [List.length_drop]
  omega

/-- ReadContent on a StorageBucket (length-prefix variant). -/
def ReadContent (sb : SBucket) : List Bytes := readFrames sb.content

/-- bucketToStorage: copy the buffer and the descriptive fields. -/
def bucketToStorage (b : Bucket) : SBucket :=
  { content := b.content, topic := b.topic, hashRate := b.hashRate,
    size := b.size, id := b.id, timestamp := b.timestamp }

/-- MakeTree: drain every bucket currently in the pool, convert each to a
StorageBucket and store it (as an interface value, not a pointer) as leaf
content of a new tree. -/
def MakeTree (H : Bytes → Bytes) (bp : BucketPool) :
    Res MerkleTreeS × BucketPool :=
  (NewTree H (bp.c.map (fun b => ContentS.storageBucket (bucketToStorage b))),
   { bp with c := [] })

/-- Sequential writes, stopping at the first refused record (claim C7
assumes every call returned true). -/
def writeAll (b : Bucket) : List Bytes → Option Bucket
  | [] => some b
  | r :: rs =>
    match WriteContent b r with
    | (true, b') => writeAll b' rs
    | (false, _) => none

/-- The frame image of a record sequence in the buffer. -/
def frames : List Bytes → Bytes
  | [] => []
  | r :: rs => toLE8 r.length ++ r ++ frames rs

namespace NLV

/-- WriteContent (newline variant, bucketpools.go): refuse if the payload
alone does not fit; append it, and append a `'\n'` separator whenever the
buffer is not exactly full afterwards. -/
def WriteContent (b : Bucket) (bs : Bytes) : Bool × Bucket :=
  if b.content.length + bs.length > b.size then (false, b)
  else
    let c1 := b.content ++ bs
    let c2 := if c1.length < b.size then c1 ++ [10] else c1
    (true, { b with content := c2, used := true })

/-- The parsing loop of ReadContent (newline variant): repeatedly
`ReadBytes('\n')`; a delimited item is stripped of the delimiter (the
`.tail` of the remainder starting at the found byte); on EOF a non-empty
remainder is kept as a final record. -/
def readLines (buf : Bytes) : List Bytes :=
  if buf = [] then []
  else
    if buf.dropWhile (fun x => x ≠ 10) = [] then
      [buf.takeWhile (fun x => x ≠ 10)]
    else
      buf.takeWhile (fun x => x ≠ 10) ::
        readLines (buf.dropWhile (fun x => x ≠ 10)).tail
termination_by buf.length
decreasing_by
  rename_i hbuf hrest
  have hsplit := List.takeWhile_append_dropWhile
    (p := fun x : Nat => decide (x ≠ 10)) (l := buf)
  have hlen : (buf.takeWhile (fun x : Nat => decide (x ≠ 10))).length +
      (buf.dropWhile (fun x : Nat => decide (x ≠ 10))).length = buf.length := by
    rw [← List.length_append, hsplit]
  have hge : 1 ≤ (buf.dropWhile (fun x : Nat => decide (x ≠ 10))).length := by
    cases hd : buf.dropWhile (fun x : Nat => decide (x ≠ 10)) with
    | nil => exact absurd hd hrest
    | cons a t => simp
  have hbge : 1 ≤ buf.length := by
    cases buf with
    | nil => exact absurd rfl hbuf
    | cons a t => simp
  simp only [List.length_tail]
  omega

/-- ReadContent on a StorageBucket (newline variant). -/
def ReadContent (sb : SBucket) : List Bytes := readLines sb.content

/-- Sequential writes of the newline variant. -/
def writeAll (b : Bucket) : List Bytes → Option Bucket
  | [] => some b
  | r :: rs =>
    match WriteContent b r with
    | (true, b') => writeAll b' rs
    | (false, _) => none

end NLV

/-- Total value of CalculateHash (junk on failure). -/
def hashValD (H : Bytes → Bytes) (c : ContentS) : Bytes :=
  match c.calculateHash H with
  | .ok v => v
  | _ => []

/-- A leaf node whose cached hash is the successful CalculateHash value of
its content — the shape produced by buildLeafs (and preserved by
addDup). -/
def IsHashedLeaf (H : Bytes → Bytes) (n : NodeS) : Prop :=
  ∃ hb c d, n = .leafN hb c d ∧ c.calculateHash H = .ok hb

/-- Concrete injective stand-in for the registered sha256 strategy, used
for evaluating the model on concrete inputs. -/
def Hc : Bytes → Bytes := fun l => 7 :: l

/-- A generic content with key `k` whose CalculateHash returns `[k+1]`. -/
def gen (k : Nat) : ContentS := .generic (.ok [k + 1]) k

/-- Extract the tree of a successful construction (junk otherwise). -/
def resTreeD (r : Res MerkleTreeS) : MerkleTreeS :=
  match r with
  | .ok t => t
  | _ => { root := dfltNode, merkleRoot := [], leafs := [], levels := [] }

/-- The tree built from the single content `gen 0` (one real leaf plus its
duplicate). -/
def exTree1 : MerkleTreeS := resTreeD (NewTree Hc [gen 0])

/-- The tree built from three generic contents. -/
def exTree3 : MerkleTreeS := resTreeD (NewTree Hc [gen 0, gen 1, gen 2])

/-- A leaf for ByteContent [1] whose cached Hash field was overwritten with
[9] after construction (in Go: `tree.Leafs[0].Hash = []byte{9}`). -/
def c3LeafA : NodeS := .leafN [9] (.byteContent [1]) false

def c3LeafB : NodeS := .leafN [2] (.byteContent [2]) false

/-- Parent of the two leaves above; its stored hash is the hash of the
children's original (uncorrupted) hashes, exactly as built. -/
def c3Parent : NodeS := .inner (Hc ([1] ++ [2])) c3LeafA c3LeafB

/-- The two-leaf tree with `c3LeafA`'s cached hash corrupted
post-construction.  With the real sha256 the same value arises from
NewTree on the two ByteContents followed by the leaf-hash assignment. -/
def c3Tree : MerkleTreeS :=
  { root := c3Parent, merkleRoot := Hc ([1] ++ [2]),
    leafs := [c3LeafA, c3LeafB], levels := [[c3LeafA, c3LeafB], [c3Parent]] }

/-- An arbitrary tree value (for instantiating stateless lemmas). -/
def mTree0 : MerkleTreeS :=
  { root := dfltNode, merkleRoot := [], leafs := [], levels := [] }

def exPool1 : BucketPool := NewBucketPool 1 8 "t"

/-- The tree MakeTree builds from the one-bucket pool `exPool1`. -/
def c9Tree : MerkleTreeS := resTreeD (MakeTree Hc exPool1).1

def sbEx : SBucket :=
  { content := [], topic := "", hashRate := 0, size := 0, id := "",
    timestamp := 0 }

/-! ### General list helpers -/

theorem getLastD_mem {α : Type} (l : List α) (d : α) (h : l ≠ []) :
    l.getLastD d ∈ l := by
  rw [List.getLastD_eq_getLast?]
  cases hl : l.getLast? with
  | none => exact absurd (List.getLast?_eq_none_iff.1 hl) h
  | some a =>
    simp only [Option.getD_some]
    exact List.mem_of_mem_getLast? (by rw [hl]; rfl)

theorem getD_mem_or {α : Type} :
    ∀ (l : List α) (n : Nat) (d : α), l.getD n d ∈ l ∨ l.getD n d = d
  | [], n, d => .inr (by simp)
  | a :: t, 0, d => .inl (by simp)
  | a :: t, n + 1, d => by
    rw [List.getD_cons_succ]
    rcases getD_mem_or t n d with h | h
    · exact .inl (List.mem_cons_of_mem a h)
    · exact .inr h

/-! ### buildLeafs -/

theorem buildLeafs_ok_of_all (H : Bytes → Bytes) :
    ∀ cs : List ContentS, cs.all (hashOkB H) = true →
      ∃ ls, buildLeafs H cs = .ok ls
  | [], _ => ⟨[], rfl⟩
  | c :: cs, h => by
    simp only [List.all_cons, Bool.and_eq_true] at h
    obtain ⟨ls, hls⟩ := buildLeafs_ok_of_all H cs h.2
    have h1 := h.1
    unfold hashOkB at h1
    unfold buildLeafs
    cases hch : c.calculateHash H with
    | ok v => rw [hls]; exact ⟨_, rfl⟩
    | err e => rw [hch] at h1; simp at h1
    | panic => rw [hch] at h1; simp at h1

theorem buildLeafs_all_ok (H : Bytes → Bytes) :
    ∀ (cs : List ContentS) (ls : List NodeS), buildLeafs H cs = .ok ls →
      cs.all (hashOkB H) = true
  | [], _, _ => rfl
  | c :: cs, ls, h => by
    unfold buildLeafs at h
    cases hch : c.calculateHash H with
    | ok v =>
      rw [hch] at h
      cases hbl : buildLeafs H cs with
      | ok tl =>
        simp only [List.all_cons, Bool.and_eq_true]
        exact ⟨by simp [hashOkB, hch], buildLeafs_all_ok H cs tl hbl⟩
      | err e => rw [hbl] at h; cases h
      | panic => rw [hbl] at h; cases h
    | err e => rw [hch] at h; cases h
    | panic => rw [hch] at h; cases h

theorem buildLeafs_cons_inv (H : Bytes → Bytes) (c : ContentS)
    (cs : List ContentS) (ls : List NodeS)
    (h : buildLeafs H (c :: cs) = .ok ls) :
    ∃ hb tl, ls = .leafN hb c false :: tl := by
  unfold buildLeafs at h
  cases hch : c.calculateHash H with
  | ok v =>
    rw [hch] at h
    cases hbl : buildLeafs H cs with
    | ok tl =>
      rw [hbl] at h
      injection h with h
      exact ⟨v, tl, h.symm⟩
    | err e => rw [hbl] at h; cases h
    | panic => rw [hbl] at h; cases h
  | err e => rw [hch] at h; cases h
  | panic => rw [hch] at h; cases h

theorem buildLeafs_content (H : Bytes → Bytes) :
    ∀ (cs : List ContentS) (ls : List NodeS), buildLeafs H cs = .ok ls →
      ls.map NodeS.content = cs
  | [], ls, h => by
    injection h with h
    subst h
    rfl
  | c :: cs, ls, h => by
    unfold buildLeafs at h
    cases hch : c.calculateHash H with
    | ok v =>
      rw [hch] at h
      cases hbl : buildLeafs H cs with
      | ok tl =>
        rw [hbl] at h
        injection h with h
        subst h
        simp [NodeS.content, buildLeafs_content H cs tl hbl]
      | err e => rw [hbl] at h; cases h
      | panic => rw [hbl] at h; cases h
    | err e => rw [hch] at h; cases h
    | panic => rw [hch] at h; cases h

theorem buildLeafs_hashes (H : Bytes → Bytes) :
    ∀ (cs : List ContentS) (ls : List NodeS), buildLeafs H cs = .ok ls →
      ls.map NodeS.hash = cs.map (hashValD H)
  | [], ls, h => by
    injection h with h
    subst h
    rfl
  | c :: cs, ls, h => by
    unfold buildLeafs at h
    cases hch : c.calculateHash H with
    | ok v =>
      rw [hch] at h
      cases hbl : buildLeafs H cs with
      | ok tl =>
        rw [hbl] at h
        injection h with h
        subst h
        simp [NodeS.hash, hashValD, hch, buildLeafs_hashes H cs tl hbl]
      | err e => rw [hbl] at h; cases h
      | panic => rw [hbl] at h; cases h
    | err e => rw [hch] at h; cases h
    | panic => rw [hch] at h; cases h

theorem buildLeafs_leaves (H : Bytes → Bytes) :
    ∀ (cs : List ContentS) (ls : List NodeS), buildLeafs H cs = .ok ls →
      ∀ n ∈ ls, IsHashedLeaf H n ∧ n.dupOf = false
  | [], ls, h => by
    injection h with h
    subst h
    simp
  | c :: cs, ls, h => by
    unfold buildLeafs at h
    cases hch : c.calculateHash H with
    | ok v =>
      rw [hch] at h
      cases hbl : buildLeafs H cs with
      | ok tl =>
        rw [hbl] at h
        injection h with h
        subst h
        intro n hn
        rcases List.mem_cons.1 hn with h1 | h2
        · subst h1
          exact ⟨⟨v, c, false, rfl, hch⟩, rfl⟩
        · exact buildLeafs_leaves H cs tl hbl n h2
      | err e => rw [hbl] at h; cases h
      | panic => rw [hbl] at h; cases h
    | err e => rw [hch] at h; cases h
    | panic => rw [hch] at h; cases h

/-! ### addDup -/

theorem addDup_cases (ns : List NodeS) :
    addDup ns = ns ∨
      (ns.length % 2 = 1 ∧
        addDup ns = ns ++ [.leafN (ns.getLastD dfltNode).hash
          (ns.getLastD dfltNode).content true]) := by
  unfold addDup
  split
  · next h => exact .inr ⟨h, rfl⟩
  · exact .inl rfl

theorem addDup_hashedLeaf (H : Bytes → Bytes) (ns : List NodeS)
    (h : ∀ n ∈ ns, IsHashedLeaf H n) :
    ∀ n ∈ addDup ns, IsHashedLeaf H n := by
  rcases addDup_cases ns with hc | ⟨hodd, hc⟩
  · rw [hc]; exact h
  · rw [hc]
    intro n hn
    rcases List.mem_append.1 hn with h1 | h2
    · exact h n h1
    · simp only [List.mem_singleton] at h2
      subst h2
      have hne : ns ≠ [] := by
        intro he
        rw [he] at hodd
        simp at hodd
      obtain ⟨hb, c, d, heq, hch⟩ := h _ (getLastD_mem ns dfltNode hne)
      refine ⟨hb, c, true, ?_, hch⟩
      rw [heq]
      rfl

theorem addDup_content (ns : List NodeS) :
    (addDup ns).map NodeS.content =
      ns.map NodeS.content ++
        (if ns.length % 2 = 1 then [(ns.getLastD dfltNode).content] else []) := by
  unfold addDup
  split
  · next h => simp [h, NodeS.content]
  · next h => simp [if_neg h]

theorem addDup_hashes (ns : List NodeS) :
    (addDup ns).map NodeS.hash =
      ns.map NodeS.hash ++
        (if ns.length % 2 = 1 then [(ns.getLastD dfltNode).hash] else []) := by
  unfold addDup
  split
  · next h => simp [h, NodeS.hash]
  · next h => simp [if_neg h]

/-! ### verifyNode over built structures -/

theorem verifyNode_of_hashedLeaf (H : Bytes → Bytes) (n : NodeS)
    (h : IsHashedLeaf H n) : verifyNode H n = .ok n.hash := by
  obtain ⟨hb, c, d, heq, hch⟩ := h
  subst heq
  simp [verifyNode, NodeS.hash, hch]

theorem pairUp_verifyOk (H : Bytes → Bytes) :
    ∀ nl : List NodeS, (∀ n ∈ nl, verifyNode H n = .ok n.hash) →
      ∀ n ∈ pairUp H nl, verifyNode H n = .ok n.hash
  | [], _ => by simp [pairUp]
  | [a], h => by
    intro n hn
    simp only [pairUp, List.mem_singleton] at hn
    subst hn
    have ha := h a (by simp)
    simp [mkParent, verifyNode, ha, NodeS.hash]
  | a :: b :: rest, h => by
    intro n hn
    simp only [pairUp, List.mem_cons] at hn
    rcases hn with hn | hn
    · subst hn
      have ha := h a (by simp)
      have hb := h b (by simp)
      simp [mkParent, verifyNode, ha, hb, NodeS.hash]
    · exact pairUp_verifyOk H rest
        (fun m hm => h m (by simp [hm])) n hn

theorem buildIntermediate_ne_nil (H : Bytes → Bytes) (nl : List NodeS) :
    buildIntermediate H nl ≠ [] := by
  unfold buildIntermediate
  split <;> simp

theorem buildIntermediate_eq (H : Bytes → Bytes) (nl : List NodeS) :
    buildIntermediate H nl =
      if nl.length ≤ 1 then [nl]
      else nl :: buildIntermediate H (pairUp H nl) := by
  rw [buildIntermediate]

theorem rootOf_cons (x : List NodeS) (L : List (List NodeS)) (h : L ≠ []) :
    rootOf (x :: L) = rootOf L := by
  unfold rootOf
  cases L with
  | nil => exact absurd rfl h
  | cons y t => simp only [List.getLastD_cons]

theorem rootOf_verifyOk (H : Bytes → Bytes) (nl : List NodeS)
    (h : ∀ n ∈ nl, verifyNode H n = .ok n.hash) :
    verifyNode H (rootOf (buildIntermediate H nl)) =
      .ok (rootOf (buildIntermediate H nl)).hash := by
  rw [buildIntermediate_eq]
  split
  · next hle =>
    cases nl with
    | nil => simp [rootOf, dfltNode, verifyNode, ContentS.calculateHash, NodeS.hash]
    | cons a t =>
      cases t with
      | nil => exact h a (by simp [rootOf, List.getLastD])
      | cons b t2 => simp at hle
  · next hgt =>
    rw [rootOf_cons _ _ (buildIntermediate_ne_nil H _)]
    exact rootOf_verifyOk H (pairUp H nl) (pairUp_verifyOk H nl h)
termination_by nl.length
decreasing_by
  simp only [pairUp_length]
  omega

/-! ### NewTree inversion -/

theorem buildWithContent_ok_inv (H : Bytes → Bytes) (cs : List ContentS)
    (r : List NodeS × List (List NodeS)) (h : buildWithContent H cs = .ok r) :
    ∃ ls, buildLeafs H cs = .ok ls ∧ cs ≠ [] ∧
      r = (addDup ls, buildIntermediate H (addDup ls)) := by
  unfold buildWithContent at h
  split at h
  · cases h
  · next hne =>
    cases hbl : buildLeafs H cs with
    | ok ls =>
      rw [hbl] at h
      injection h with h
      exact ⟨ls, rfl, hne, h.symm⟩
    | err e => rw [hbl] at h; cases h
    | panic => rw [hbl] at h; cases h

theorem NewTree_ok_inv (H : Bytes → Bytes) (cs : List ContentS)
    (m : MerkleTreeS) (h : NewTree H cs = .ok m) :
    ∃ ls, buildLeafs H cs = .ok ls ∧ cs ≠ [] ∧
      m = { root := rootOf (buildIntermediate H (addDup ls)),
            merkleRoot := (rootOf (buildIntermediate H (addDup ls))).hash,
            leafs := addDup ls,
            levels := buildIntermediate H (addDup ls) } := by
  unfold NewTree at h
  cases hbw : buildWithContent H cs with
  | ok r =>
    obtain ⟨ls2, lv⟩ := r
    rw [hbw] at h
    injection h with h
    obtain ⟨ls, h1, h2, h3⟩ := buildWithContent_ok_inv H cs _ hbw
    injection h3 with h3a h3b
    subst h3a
    subst h3b
    exact ⟨ls, h1, h2, h.symm⟩
  | err e => rw [hbw] at h; cases h
  | panic => rw [hbw] at h; cases h

/-- C1: for every non-empty list of contents whose CalculateHash calls are
deterministic (automatic in this functional model) and return no error,
NewTree succeeds, and calling VerifyTree immediately afterwards on the
resulting tree returns (true, nil). -/
theorem C1_newTree_then_verifyTree (H : Bytes → Bytes) (cs : List ContentS)
    (hne : cs ≠ []) (hok : cs.all (hashOkB H) = true) :
    ∃ t, NewTree H cs = .ok t ∧ VerifyTree H t = .ok true := by
  obtain ⟨ls, hls⟩ := buildLeafs_ok_of_all H cs hok
  have hbw : buildWithContent H cs =
      .ok (addDup ls, buildIntermediate H (addDup ls)) := by
    unfold buildWithContent
    rw [if_neg hne, hls]
  have hleaves := buildLeafs_leaves H cs ls hls
  have hhl : ∀ n ∈ addDup ls, IsHashedLeaf H n :=
    addDup_hashedLeaf H ls (fun n hn => (hleaves n hn).1)
  have hvok : ∀ n ∈ addDup ls, verifyNode H n = .ok n.hash :=
    fun n hn => verifyNode_of_hashedLeaf H n (hhl n hn)
  have hroot := rootOf_verifyOk H (addDup ls) hvok
  refine ⟨{ root := rootOf (buildIntermediate H (addDup ls)),
            merkleRoot := (rootOf (buildIntermediate H (addDup ls))).hash,
            leafs := addDup ls,
            levels := buildIntermediate H (addDup ls) }, ?_, ?_⟩
  · unfold NewTree
    rw [hbw]
  · unfold VerifyTree
    simp only []
    rw [hroot]
    simp

/-- C1 witness: the property evaluated at a concrete two-content input. -/
theorem C1_witness :
    ∃ t, NewTree Hc [gen 0, gen 1] = .ok t ∧ VerifyTree Hc t = .ok true :=
  C1_newTree_then_verifyTree Hc [gen 0, gen 1] (by decide) (by decide)

/-! ### The parent chain: index arithmetic over pairUp -/

theorem mkParent_hash (H : Bytes → Bytes) (l r : NodeS) :
    (mkParent H l r).hash = H (l.hash ++ r.hash) := rfl

theorem mkParent_leftOf (H : Bytes → Bytes) (l r : NodeS) :
    (mkParent H l r).leftOf = l := rfl

theorem mkParent_rightOf (H : Bytes → Bytes) (l r : NodeS) :
    (mkParent H l r).rightOf = r := rfl

theorem pairUp_getD (H : Bytes → Bytes) :
    ∀ (nl : List NodeS) (j : Nat), j < nl.length →
      ∃ l r, (pairUp H nl).getD (j / 2) dfltNode = mkParent H l r ∧
        (l = nl.getD j dfltNode ∨ r = nl.getD j dfltNode)
  | [], j, hj => by simp at hj
  | [a], j, hj => by
    have hj0 : j = 0 := by
      simp at hj
      omega
    subst hj0
    exact ⟨a, a, rfl, .inl rfl⟩
  | a :: b :: rest, j, hj => by
    match j with
    | 0 => exact ⟨a, b, rfl, .inl rfl⟩
    | 1 => exact ⟨a, b, rfl, .inr rfl⟩
    | k + 2 =>
      have hk : k < rest.length := by
        simp at hj
        omega
      obtain ⟨l, r, h1, h2⟩ := pairUp_getD H rest k hk
      have hdiv : (k + 2) / 2 = k / 2 + 1 := by omega
      refine ⟨l, r, ?_, ?_⟩
      · rw [hdiv]
        simpa [pairUp, List.getD_cons_succ] using h1
      · simpa [List.getD_cons_succ] using h2

/-- Folding the current node's hash through the walk from leaf position
`j` reproduces the root hash of the level structure. -/
theorem walk_fold (H : Bytes → Bytes) (nl : List NodeS) (j : Nat)
    (hj : j < nl.length) :
    foldPath H ((nl.getD j dfltNode).hash)
        (walkUp (nl.getD j dfltNode) (buildIntermediate H nl).tail j).1
        (walkUp (nl.getD j dfltNode) (buildIntermediate H nl).tail j).2 =
      (rootOf (buildIntermediate H nl)).hash := by
  rw [buildIntermediate_eq]
  split
  · next hle =>
    cases nl with
    | nil => simp at hj
    | cons a t =>
      cases t with
      | nil =>
        have hj0 : j = 0 := by simpa using hj
        subst hj0
        simp [walkUp, foldPath, rootOf, List.getLastD]
      | cons b t2 => simp at hle
  · next hgt =>
    have hstep : buildIntermediate H (pairUp H nl) =
        pairUp H nl :: (buildIntermediate H (pairUp H nl)).tail := by
      rw [buildIntermediate_eq]
      split <;> simp
    obtain ⟨l, r, hp, hlr⟩ := pairUp_getD H nl j hj
    have hjlt : j / 2 < (pairUp H nl).length := by
      rw [pairUp_length]
      omega
    have hrec := walk_fold H (pairUp H nl) (j / 2) hjlt
    simp only [List.tail_cons]
    rw [rootOf_cons _ _ (buildIntermediate_ne_nil H _)]
    conv_lhs => rw [hstep]
    simp only [walkUp]
    rw [hp] at hrec ⊢
    simp only [mkParent_hash, mkParent_leftOf, mkParent_rightOf] at hrec ⊢
    by_cases hcase : l.hash = (nl.getD j dfltNode).hash
    · simp only [if_pos hcase]
      simp only [foldPath]
      simp only [if_true, ite_true, if_pos trivial]
      rw [← hcase]
      exact hrec
    · have hr : r = nl.getD j dfltNode := by
        rcases hlr with h | h
        · exact absurd (by rw [h]) hcase
        · exact h
      simp only [if_neg hcase]
      simp only [foldPath]
      simp only [if_false, ite_false, if_neg (by decide : ¬(0 : Nat) = 1)]
      rw [← hr]
      exact hrec
termination_by nl.length
decreasing_by
  simp only [pairUp_length]
  omega

theorem findFirstEqAux_lt :
    ∀ (ls : List NodeS) (x : ContentS) (i j : Nat),
      findFirstEqAux ls x i = .ok (some j) → i ≤ j ∧ j < i + ls.length
  | [], x, i, j => by
    intro h
    injection h with h
    cases h
  | n :: rest, x, i, j => by
    intro h
    unfold findFirstEqAux at h
    cases heq : n.content.equals x with
    | ok b =>
      rw [heq] at h
      cases b with
      | true =>
        injection h with h
        injection h with h
        subst h
        simp
      | false =>
        have := findFirstEqAux_lt rest x (i + 1) j h
        simp only [List.length_cons]
        omega
    | err e => rw [heq] at h; cases h
    | panic => rw [heq] at h; cases h

/-- On hash-successful non-empty content, NewTree succeeds, with the result
written through `resTreeD` (used to instantiate build hypotheses on
concrete inputs without evaluating the level structure). -/
theorem NewTree_ok_of_all (H : Bytes → Bytes) (cs : List ContentS)
    (hne : cs ≠ []) (hok : cs.all (hashOkB H) = true) :
    NewTree H cs = .ok (resTreeD (NewTree H cs)) := by
  obtain ⟨ls, hls⟩ := buildLeafs_ok_of_all H cs hok
  have hbw : buildWithContent H cs =
      .ok (addDup ls, buildIntermediate H (addDup ls)) := by
    unfold buildWithContent
    rw [if_neg hne, hls]
  unfold NewTree resTreeD
  rw [hbw]

/-- C2: on any tree built by NewTree, if the leaf scan finds a first leaf
whose content Equals `x` at index `j`, then GetMerklePath returns a list
of sibling hashes with side indicators, and folding the matched leaf's own
cached hash through them — `H (current ++ sibling)` on indicator 1,
`H (sibling ++ current)` on indicator 0 — reproduces the tree's
MerkleRoot. -/
theorem C2_getMerklePath_fold (H : Bytes → Bytes) (cs : List ContentS)
    (m : MerkleTreeS) (x : ContentS) (j : Nat)
    (hm : NewTree H cs = .ok m)
    (hfind : findFirstEq m.leafs x = .ok (some j)) :
    ∃ p i, GetMerklePath m x = .ok (p, i) ∧
      foldPath H ((m.leafs.getD j dfltNode).hash) p i = m.merkleRoot := by
  obtain ⟨ls, hls, hne, hmeq⟩ := NewTree_ok_inv H cs m hm
  have hleafs : m.leafs = addDup ls := by rw [hmeq]
  have hlevels : m.levels = buildIntermediate H (addDup ls) := by rw [hmeq]
  have hmr : m.merkleRoot = (rootOf (buildIntermediate H (addDup ls))).hash := by
    rw [hmeq]
  rw [hleafs] at hfind
  have hjlt : j < (addDup ls).length := by
    have := findFirstEqAux_lt (addDup ls) x 0 j hfind
    omega
  refine ⟨(walkUp ((addDup ls).getD j dfltNode)
            (buildIntermediate H (addDup ls)).tail j).1,
          (walkUp ((addDup ls).getD j dfltNode)
            (buildIntermediate H (addDup ls)).tail j).2, ?_, ?_⟩
  · unfold GetMerklePath
    rw [hleafs, hlevels, hfind]
  · rw [hleafs, hmr]
    exact walk_fold H (addDup ls) j hjlt

/-- C2 witness: the fold property evaluated on the three-content tree at
the leaf matching `gen 1`. -/
theorem C2_witness :
    ∃ p i, GetMerklePath exTree3 (gen 1) = .ok (p, i) ∧
      foldPath Hc ((exTree3.leafs.getD 1 dfltNode).hash) p i =
        exTree3.merkleRoot :=
  C2_getMerklePath_fold Hc [gen 0, gen 1, gen 2] exTree3 (gen 1) 1
    (NewTree_ok_of_all Hc [gen 0, gen 1, gen 2] (by decide) (by decide))
    (by decide)

/-! ### Claim C3: the ancestor checks of VerifyContent -/

theorem calculateNodeHash_ok (H : Bytes → Bytes) (n : NodeS)
    (h : nodeContentsOk H n = true) :
    calculateNodeHash H n = .ok (cnhD H n) := by
  cases n with
  | leafN hb c d =>
    have hch : ∃ v, c.calculateHash H = .ok v := by
      unfold nodeContentsOk hashOkB at h
      cases hc : c.calculateHash H with
      | ok v => exact ⟨v, rfl⟩
      | err e => rw [hc] at h; simp at h
      | panic => rw [hc] at h; simp at h
    obtain ⟨v, hv⟩ := hch
    simp [calculateNodeHash, cnhD, hv]
  | inner hb l r => rfl

theorem nodeContentsOk_children (H : Bytes → Bytes) (n : NodeS)
    (h : nodeContentsOk H n = true) :
    nodeContentsOk H n.leftOf = true ∧ nodeContentsOk H n.rightOf = true := by
  cases n with
  | leafN hb c d => exact ⟨h, h⟩
  | inner hb l r =>
    unfold nodeContentsOk at h
    simp only [Bool.and_eq_true] at h
    exact ⟨h.1, h.2⟩

/-- The ancestor loop equals an `all` over the ancestor chain, each
ancestor checked with the one-level recomputation
`H(calculateNodeHash(Left) ++ calculateNodeHash(Right))`, provided every
leaf content hashing involved succeeds. -/
theorem checkAncestors_all (H : Bytes → Bytes) :
    ∀ (above : List (List NodeS)) (j : Nat),
      (∀ lvl ∈ above, ∀ n ∈ lvl, nodeContentsOk H n = true) →
      checkAncestors H above j =
        .ok ((ancestorChain above j).all
          (fun p => H (cnhD H p.leftOf ++ cnhD H p.rightOf) == p.hash))
  | [], j, _ => rfl
  | lvl :: above, j, h => by
    have hp : nodeContentsOk H (lvl.getD (j / 2) dfltNode) = true := by
      rcases getD_mem_or lvl (j / 2) dfltNode with hm | hm
      · exact h lvl (by simp) _ hm
      · rw [hm]; rfl
    obtain ⟨hl, hr⟩ := nodeContentsOk_children H _ hp
    have hrest := checkAncestors_all H above (j / 2)
      (fun l hl2 => h l (by simp [hl2]))
    simp only [checkAncestors, ancestorChain, List.all_cons]
    rw [calculateNodeHash_ok H _ hr, calculateNodeHash_ok H _ hl]
    dsimp only
    by_cases hcmp : H (cnhD H (lvl.getD (j / 2) dfltNode).leftOf ++
        cnhD H (lvl.getD (j / 2) dfltNode).rightOf) =
        (lvl.getD (j / 2) dfltNode).hash
    · rw [if_pos hcmp, hrest]
      have hbeq : (H (cnhD H (lvl.getD (j / 2) dfltNode).leftOf ++
          cnhD H (lvl.getD (j / 2) dfltNode).rightOf) ==
          (lvl.getD (j / 2) dfltNode).hash) = true := by
        rw [hcmp]
        exact beq_self_eq_true _
      rw [hbeq]
      simp
    · rw [if_neg hcmp]
      have hbeq : (H (cnhD H (lvl.getD (j / 2) dfltNode).leftOf ++
          cnhD H (lvl.getD (j / 2) dfltNode).rightOf) ==
          (lvl.getD (j / 2) dfltNode).hash) = false := by
        rw [beq_eq_false_iff_ne]
        exact hcmp
      rw [hbeq]
      simp

/-- C3 counterexample: on the two-leaf tree whose matched leaf has a
corrupted cached Hash field, the code's VerifyContent still answers true
(it re-hashes the leaf content through calculateNodeHash), while the
procedure the claim describes — recomputing from the children's *cached*
Hash fields — answers false.  So VerifyContent does not implement the
claimed cached-hash check. -/
theorem C3_counterexample :
    VerifyContent Hc c3Tree (.byteContent [1]) = .ok true ∧
      VerifyContentCached Hc c3Tree (.byteContent [1]) = .ok false := by
  decide

/-- C3 amended: when VerifyContent finds a leaf whose content Equals the
argument (index `j`), and every content hashing involved succeeds, it
returns true iff every ancestor's stored hash equals
`H(calculateNodeHash(Left) ++ calculateNodeHash(Right))`, where
calculateNodeHash re-hashes a leaf child's content and combines the cached
hashes of an internal child's two children — a one-level recompute, not
the ancestor's children's own cached hashes. -/
theorem C3_verifyContent_recompute (H : Bytes → Bytes) (m : MerkleTreeS)
    (x : ContentS) (j : Nat)
    (hok : ∀ lvl ∈ m.levels.tail, ∀ n ∈ lvl, nodeContentsOk H n = true)
    (hfind : findFirstEq m.leafs x = .ok (some j)) :
    VerifyContent H m x =
      .ok ((ancestorChain m.levels.tail j).all
        (fun p => H (cnhD H p.leftOf ++ cnhD H p.rightOf) == p.hash)) := by
  unfold VerifyContent
  rw [hfind]
  exact checkAncestors_all H m.levels.tail j hok

/-- C3 witness: the amended property evaluated on the corrupted two-leaf
tree. -/
theorem C3_witness :
    VerifyContent Hc c3Tree (.byteContent [1]) =
      .ok ((ancestorChain c3Tree.levels.tail 0).all
        (fun p => Hc (cnhD Hc p.leftOf ++ cnhD Hc p.rightOf) == p.hash)) :=
  C3_verifyContent_recompute Hc c3Tree (.byteContent [1]) 0
    (by decide) (by decide)

/-! ### Claim C4: RebuildTree and the duplicate leaf -/

theorem getLastD_map {α β : Type} (f : α → β) :
    ∀ (l : List α) (d : α), (l.map f).getLastD (f d) = f (l.getLastD d)
  | [], _ => rfl
  | a :: t, d => by
    rw [List.map_cons, List.getLastD_cons, List.getLastD_cons]
    exact getLastD_map f t a

theorem pairUp_hash_det (H : Bytes → Bytes) :
    ∀ (l l' : List NodeS), l.map NodeS.hash = l'.map NodeS.hash →
      (pairUp H l).map NodeS.hash = (pairUp H l').map NodeS.hash
  | [], [], _ => rfl
  | [], _ :: _, h => by simp at h
  | _ :: _, [], h => by simp at h
  | [a], [a'], h => by
    simp only [List.map_cons, List.map_nil, List.cons.injEq] at h
    simp [pairUp, mkParent_hash, h.1]
  | [a], a' :: b' :: t', h => by simp at h
  | a :: b :: t, [a'], h => by simp at h
  | a :: b :: t, a' :: b' :: t', h => by
    simp only [List.map_cons, List.cons.injEq] at h
    obtain ⟨h1, h2, h3⟩ := h
    simp only [pairUp, List.map_cons, mkParent_hash, h1, h2]
    rw [pairUp_hash_det H t t' h3]

/-- The root hash of the reduction depends only on the hash list of the
input level. -/
theorem rootHash_det (H : Bytes → Bytes) (l l' : List NodeS)
    (h : l.map NodeS.hash = l'.map NodeS.hash) :
    (rootOf (buildIntermediate H l)).hash =
      (rootOf (buildIntermediate H l')).hash := by
  have hlen : l.length = l'.length := by
    have := congrArg List.length h
    simpa using this
  by_cases hle : l.length ≤ 1
  · rw [buildIntermediate_eq H l, if_pos hle, buildIntermediate_eq H l',
      if_pos (by omega : l'.length ≤ 1)]
    cases l with
    | nil =>
      cases l' with
      | nil => rfl
      | cons a t => simp at hlen
    | cons a t =>
      cases l' with
      | nil => simp at hlen
      | cons a' t' =>
        simp only [List.map_cons, List.cons.injEq] at h
        simp [rootOf, List.getLastD_cons, List.getLastD_nil, h.1]
  · rw [buildIntermediate_eq H l, if_neg hle, buildIntermediate_eq H l',
      if_neg (by omega : ¬l'.length ≤ 1)]
    rw [rootOf_cons _ _ (buildIntermediate_ne_nil H _),
        rootOf_cons _ _ (buildIntermediate_ne_nil H _)]
    exact rootHash_det H (pairUp H l) (pairUp H l') (pairUp_hash_det H l l' h)
termination_by l.length
decreasing_by
  simp only [pairUp_length]
  omega

/-- C4 counterexample: the tree built from the single content `gen 0` has
leaf list [real, duplicate]; after RebuildTree — which collects the
contents of *all* leaves, the duplicate included — the new leaf list has
two entries and *neither* is flagged duplicate, contradicting the claim
that exactly the last one is. -/
theorem C4_counterexample :
    NewTree Hc [gen 0] = .ok exTree1 ∧
      exTree1.leafs.map NodeS.dupOf = [false, true] ∧
      (RebuildTree Hc exTree1).1 = .ok () ∧
      (RebuildTree Hc exTree1).2.leafs.map NodeS.dupOf = [false, false] ∧
      ¬(RebuildTree Hc exTree1).2.leafs.map NodeS.dupOf = [false, true] := by
  refine ⟨NewTree_ok_of_all Hc [gen 0] (by decide) (by decide), ?_, ?_, ?_, ?_⟩
  · decide
  · decide
  · decide
  · decide

/-- C4 amended: for a tree built from an odd number n of contents,
RebuildTree succeeds using all n+1 stored leaf contents (the duplicate's
content included): afterwards the leaf list has n+1 entries whose contents
are the original contents followed by a second copy of the last one, *no*
entry is flagged duplicate, and the MerkleRoot is unchanged. -/
theorem C4_rebuildTree_amended (H : Bytes → Bytes) (cs : List ContentS)
    (m : MerkleTreeS) (hodd : cs.length % 2 = 1)
    (hm : NewTree H cs = .ok m) :
    ∃ m', RebuildTree H m = (.ok (), m') ∧
      m'.leafs.length = cs.length + 1 ∧
      m'.leafs.map NodeS.content =
        cs ++ [cs.getLastD (ContentS.byteContent [])] ∧
      (∀ n ∈ m'.leafs, n.dupOf = false) ∧
      m'.merkleRoot = m.merkleRoot := by
  obtain ⟨ls, hls, hne, hmeq⟩ := NewTree_ok_inv H cs m hm
  have hlc := buildLeafs_content H cs ls hls
  have hlh := buildLeafs_hashes H cs ls hls
  have hlen : ls.length = cs.length := by
    have := congrArg List.length hlc
    simpa using this
  have hlodd : ls.length % 2 = 1 := by rw [hlen]; exact hodd
  have hcsne : cs ≠ [] := hne
  have hleafs : m.leafs = addDup ls := by rw [hmeq]
  have hdcont : (ls.getLastD dfltNode).content =
      cs.getLastD (ContentS.byteContent []) := by
    conv_rhs => rw [← hlc]
    exact (getLastD_map NodeS.content ls dfltNode).symm
  have hcs' : m.leafs.map NodeS.content =
      cs ++ [cs.getLastD (ContentS.byteContent [])] := by
    rw [hleafs, addDup_content, if_pos hlodd, hlc, hdcont]
  -- the rebuilt leaf list
  have hlast_mem : cs.getLastD (ContentS.byteContent []) ∈ cs :=
    getLastD_mem cs _ hcsne
  have hallcs := buildLeafs_all_ok H cs ls hls
  have hall' : (cs ++ [cs.getLastD (ContentS.byteContent [])]).all
      (hashOkB H) = true := by
    rw [List.all_append, Bool.and_eq_true]
    constructor
    · exact hallcs
    · simp only [List.all_cons, List.all_nil, Bool.and_true]
      exact (List.all_eq_true.1 hallcs) _ hlast_mem
  obtain ⟨ls', hls'⟩ := buildLeafs_ok_of_all H _ hall'
  have hlc' := buildLeafs_content H _ ls' hls'
  have hlh' := buildLeafs_hashes H _ ls' hls'
  have hlen' : ls'.length = cs.length + 1 := by
    have := congrArg List.length hlc'
    simpa using this
  have haddeq : addDup ls' = ls' := by
    unfold addDup
    rw [if_neg (by omega : ¬ls'.length % 2 = 1)]
  have hbw : buildWithContent H (m.leafs.map NodeS.content) =
      .ok (ls', buildIntermediate H ls') := by
    unfold buildWithContent
    rw [hcs']
    rw [if_neg (by simp :
      ¬(cs ++ [cs.getLastD (ContentS.byteContent [])] = []))]
    rw [hls']
    dsimp only
    rw [haddeq]
  refine ⟨{ root := rootOf (buildIntermediate H ls'),
            merkleRoot := (rootOf (buildIntermediate H ls')).hash,
            leafs := ls', levels := buildIntermediate H ls' }, ?_, ?_, ?_, ?_, ?_⟩
  · unfold RebuildTree
    rw [hbw]
  · exact hlen'
  · rw [hlc']
  · exact fun n hn => (buildLeafs_leaves H _ ls' hls' n hn).2
  · -- root hash unchanged
    have hmr : m.merkleRoot =
        (rootOf (buildIntermediate H (addDup ls))).hash := by rw [hmeq]
    rw [hmr]
    apply rootHash_det
    rw [hlh', addDup_hashes, if_pos hlodd, hlh]
    rw [List.map_append]
    congr 1
    simp only [List.map_cons, List.map_nil]
    congr 1
    have h1 : (ls.getLastD dfltNode).hash =
        (cs.map (hashValD H)).getLastD [] := by
      rw [← hlh]
      exact (getLastD_map NodeS.hash ls dfltNode).symm
    have h2 : hashValD H (cs.getLastD (ContentS.byteContent [])) =
        (cs.map (hashValD H)).getLastD [] :=
      (getLastD_map (hashValD H) cs (ContentS.byteContent [])).symm
    rw [h2, h1]

/-- C4 witness: the amended property at the one-content tree. -/
theorem C4_witness :
    ∃ m', RebuildTree Hc exTree1 = (.ok (), m') ∧
      m'.leafs.length = [gen 0].length + 1 ∧
      m'.leafs.map NodeS.content =
        [gen 0] ++ [[gen 0].getLastD (ContentS.byteContent [])] ∧
      (∀ n ∈ m'.leafs, n.dupOf = false) ∧
      m'.merkleRoot = exTree1.merkleRoot :=
  C4_rebuildTree_amended Hc [gen 0] exTree1 (by decide)
    (NewTree_ok_of_all Hc [gen 0] (by decide) (by decide))

/-! ### Claim C5: ExtendTree -/

theorem buildIntermediate_two (H : Bytes → Bytes) (a b : NodeS) :
    buildIntermediate H [a, b] = [[a, b], [mkParent H a b]] := by
  rw [buildIntermediate_eq, if_neg (by simp : ¬([a, b] : List NodeS).length ≤ 1)]
  have hpu : pairUp H [a, b] = [mkParent H a b] := rfl
  rw [hpu, buildIntermediate_eq, if_pos (by simp)]

theorem collectNonDup_eq :
    ∀ ls : List NodeS, collectNonDup ls =
      (ls.filter (fun n => !n.dupOf)).map NodeS.content
  | [] => rfl
  | n :: rest => by
    unfold collectNonDup
    rw [List.filter_cons]
    by_cases hd : n.dupOf
    · rw [if_pos hd]
      simp [hd, collectNonDup_eq rest]
    · rw [if_neg hd]
      simp [hd, collectNonDup_eq rest]

/-- C5 counterexample: extending the one-content tree `exTree1` with a
copy of its content is a rebuild from [gen 0, gen 0]; the duplicate
padding of the original tree already hashed exactly that leaf sequence,
so the MerkleRoot is unchanged although the appended content list is
non-empty — refuting the claim's "the resulting MerkleRoot differs". -/
theorem C5_counterexample :
    ([gen 0] : List ContentS) ≠ [] ∧
      (ExtendTree Hc [gen 0] exTree1).1 = .ok () ∧
      (ExtendTree Hc [gen 0] exTree1).2.merkleRoot = exTree1.merkleRoot := by
  have hT : NewTree Hc [gen 0] = .ok exTree1 :=
    NewTree_ok_of_all Hc [gen 0] (by decide) (by decide)
  obtain ⟨ls, hls, hne, hmeq⟩ := NewTree_ok_inv Hc [gen 0] exTree1 hT
  have hls0 : buildLeafs Hc [gen 0] =
      .ok [NodeS.leafN [1] (gen 0) false] := by decide
  rw [hls0] at hls
  injection hls with hls
  subst hls
  have hadd : addDup [NodeS.leafN [1] (gen 0) false] =
      [NodeS.leafN [1] (gen 0) false, NodeS.leafN [1] (gen 0) true] := by
    decide
  have hcd : collectNonDup exTree1.leafs ++ [gen 0] = [gen 0, gen 0] := by
    decide
  have hbl2 : buildLeafs Hc [gen 0, gen 0] =
      .ok [NodeS.leafN [1] (gen 0) false, NodeS.leafN [1] (gen 0) false] := by
    decide
  have hadd2 : addDup
      [NodeS.leafN [1] (gen 0) false, NodeS.leafN [1] (gen 0) false] =
      [NodeS.leafN [1] (gen 0) false, NodeS.leafN [1] (gen 0) false] := by
    decide
  have hbw2 : buildWithContent Hc [gen 0, gen 0] =
      .ok ([NodeS.leafN [1] (gen 0) false, NodeS.leafN [1] (gen 0) false],
        buildIntermediate Hc
          [NodeS.leafN [1] (gen 0) false, NodeS.leafN [1] (gen 0) false]) := by
    unfold buildWithContent
    rw [if_neg (by decide : ¬([gen 0, gen 0] : List ContentS) = []), hbl2]
    dsimp only
    rw [hadd2]
  have hext : ExtendTree Hc [gen 0] exTree1 =
      RebuildTreeWith Hc [gen 0, gen 0] exTree1 := by
    unfold ExtendTree
    rw [hcd]
  refine ⟨by decide, ?_, ?_⟩
  · rw [hext]
    unfold RebuildTreeWith
    rw [hbw2]
  · rw [hext]
    unfold RebuildTreeWith
    rw [hbw2]
    dsimp only
    have hmr : exTree1.merkleRoot =
        (rootOf (buildIntermediate Hc
          (addDup [NodeS.leafN [1] (gen 0) false]))).hash := by
      rw [hmeq]
    rw [hmr, hadd]
    exact rootHash_det Hc _ _ (by decide)

/-- C5 amended: ExtendTree rebuilds with content equal to the tree's
non-duplicate leaf contents in their original order followed by the new
contents (the "resulting root differs whenever cs is non-empty" clause of
the claim is false, see the counterexample). -/
theorem C5_extendTree_amended (H : Bytes → Bytes) (cs : List ContentS)
    (m : MerkleTreeS) :
    ExtendTree H cs m =
      RebuildTreeWith H
        (((m.leafs.filter (fun n => !n.dupOf)).map NodeS.content) ++ cs)
        m := by
  unfold ExtendTree
  rw [collectNonDup_eq]

/-- C5 witness: the amended equation at the one-content tree. -/
theorem C5_witness :
    ExtendTree Hc [gen 0] exTree1 =
      RebuildTreeWith Hc
        (((exTree1.leafs.filter (fun n => !n.dupOf)).map NodeS.content) ++
          [gen 0]) exTree1 :=
  C5_extendTree_amended Hc [gen 0] exTree1

/-! ### Claim C6: failed rebuilds leave the tree unchanged -/

theorem rebuildTreeWith_state (H : Bytes → Bytes) (cs : List ContentS)
    (m : MerkleTreeS) :
    ((RebuildTreeWith H cs m).1 ≠ .ok () → (RebuildTreeWith H cs m).2 = m) ∧
    ((RebuildTreeWith H cs m).1 = .ok () ↔
      (cs ≠ [] ∧ cs.all (hashOkB H) = true)) := by
  unfold RebuildTreeWith
  cases hbw : buildWithContent H cs with
  | ok r =>
    obtain ⟨ls2, lv⟩ := r
    obtain ⟨ls, hls, hne, _⟩ := buildWithContent_ok_inv H cs _ hbw
    dsimp only
    constructor
    · intro h'
      exact absurd rfl h'
    · constructor
      · intro _
        exact ⟨hne, buildLeafs_all_ok H cs ls hls⟩
      · intro _
        rfl
  | err e =>
    dsimp only
    constructor
    · intro _
      rfl
    · constructor
      · intro h'
        cases h'
      · rintro ⟨hne, hall⟩
        obtain ⟨ls, hls⟩ := buildLeafs_ok_of_all H cs hall
        unfold buildWithContent at hbw
        rw [if_neg hne, hls] at hbw
        cases hbw
  | panic =>
    dsimp only
    constructor
    · intro _
      rfl
    · constructor
      · intro h'
        cases h'
      · rintro ⟨hne, hall⟩
        obtain ⟨ls, hls⟩ := buildLeafs_ok_of_all H cs hall
        unfold buildWithContent at hbw
        rw [if_neg hne, hls] at hbw
        cases hbw

/-- C6: whenever RebuildTree, RebuildTreeWith or ExtendTree does not
succeed (error or panic: empty content list or a CalculateHash failure),
the tree state — Root, Leafs, MerkleRoot (and the level structure) — is
exactly what it was before the call; and RebuildTreeWith succeeds exactly
when its content list is non-empty with all hashes succeeding. -/
theorem C6_rebuild_state (H : Bytes → Bytes) (cs : List ContentS)
    (m : MerkleTreeS) :
    ((RebuildTree H m).1 ≠ .ok () → (RebuildTree H m).2 = m) ∧
    ((RebuildTreeWith H cs m).1 ≠ .ok () → (RebuildTreeWith H cs m).2 = m) ∧
    ((ExtendTree H cs m).1 ≠ .ok () → (ExtendTree H cs m).2 = m) ∧
    ((RebuildTreeWith H cs m).1 = .ok () ↔
      (cs ≠ [] ∧ cs.all (hashOkB H) = true)) := by
  have h1 := rebuildTreeWith_state H (m.leafs.map NodeS.content) m
  have h2 := rebuildTreeWith_state H cs m
  have h3 := rebuildTreeWith_state H (collectNonDup m.leafs ++ cs) m
  have hre : RebuildTree H m =
      RebuildTreeWith H (m.leafs.map NodeS.content) m := rfl
  have hex : ExtendTree H cs m =
      RebuildTreeWith H (collectNonDup m.leafs ++ cs) m := rfl
  refine ⟨?_, h2.1, ?_, h2.2⟩
  · rw [hre]
    exact h1.1
  · rw [hex]
    exact h3.1

/-- C6 witness: a failing rebuild (empty leaf list) leaves the concrete
tree untouched, and the success criterion evaluated at the empty list. -/
theorem C6_witness :
    (RebuildTree Hc mTree0).2 = mTree0 ∧
      ((RebuildTreeWith Hc [] mTree0).1 = .ok () ↔
        (([] : List ContentS) ≠ [] ∧
          ([] : List ContentS).all (hashOkB Hc) = true)) :=
  ⟨(C6_rebuild_state Hc [] mTree0).1 (by decide),
   (C6_rebuild_state Hc [] mTree0).2.2.2⟩

/-! ### Claim C7: bucket packing round-trip -/

theorem toLEBytes_length : ∀ (k n : Nat), (toLEBytes k n).length = k
  | 0, _ => rfl
  | k + 1, n => by simp [toLEBytes, toLEBytes_length k]

theorem fromLE_nil : fromLE [] = 0 := rfl

theorem fromLE_cons (b : Nat) (l : Bytes) :
    fromLE (b :: l) = b + 256 * fromLE l := rfl

theorem fromLE_toLEBytes : ∀ (k n : Nat),
    fromLE (toLEBytes k n) = n % 256 ^ k
  | 0, n => by simp [toLEBytes, fromLE_nil, Nat.mod_one]
  | k + 1, n => by
    rw [toLEBytes, fromLE_cons, fromLE_toLEBytes k (n / 256)]
    rw [Nat.pow_succ', Nat.mod_mul]

theorem writeContent_true (b : Bucket) (bs : Bytes) (b' : Bucket)
    (h : WriteContent b bs = (true, b')) :
    b'.content = b.content ++ toLE8 bs.length ++ bs := by
  unfold WriteContent at h
  split at h
  · simp at h
  · injection h with h1 h2
    rw [← h2]

theorem writeAll_content : ∀ (b : Bucket) (rs : List Bytes) (b' : Bucket),
    writeAll b rs = some b' → b'.content = b.content ++ frames rs
  | b, [], b' => by
    intro h
    injection h with h
    subst h
    simp [frames]
  | b, r :: rs, b' => by
    intro h
    unfold writeAll at h
    cases hw : WriteContent b r with
    | mk okb b2 =>
      rw [hw] at h
      cases okb with
      | true =>
        have hc2 := writeContent_true b r b2 hw
        rw [writeAll_content b2 rs b' h, hc2, frames]
        simp [List.append_assoc]
      | false => cases h

theorem readFrames_frames : ∀ rs : List Bytes,
    (∀ r ∈ rs, r ≠ [] ∧ r.length < 2 ^ 64) → readFrames (frames rs) = rs
  | [], _ => by
    rw [frames, readFrames]
    simp [fromLE_nil]
  | r :: rs, h => by
    obtain ⟨hne, hlt⟩ := h r (by simp)
    have hlen8 : (toLE8 r.length).length = 8 := toLEBytes_length 8 _
    have htake : (frames (r :: rs)).take 8 = toLE8 r.length := by
      rw [frames, List.append_assoc, ← hlen8]
      exact List.take_left _ _
    have hfle : fromLE ((frames (r :: rs)).take 8) = r.length := by
      rw [htake]
      unfold toLE8
      rw [fromLE_toLEBytes]
      have h256 : (256 : Nat) ^ 8 = 2 ^ 64 := by norm_num
      rw [h256]
      exact Nat.mod_eq_of_lt hlt
    have hlne : ¬r.length = 0 := by
      intro h0
      exact hne (List.eq_nil_of_length_eq_zero h0)
    have hdrop8 : (frames (r :: rs)).drop 8 = r ++ frames rs := by
      rw [frames, List.append_assoc, ← hlen8]
      exact List.drop_left _ _
    rw [readFrames, hfle, dif_neg hlne, hdrop8]
    rw [List.take_left r _, List.drop_left r _]
    have hpad : padTo r.length r = r := by
      unfold padTo
      simp
    rw [hpad]
    rw [readFrames_frames rs (fun x hx => h x (by simp [hx]))]

/-- C7 counterexample: in the length-prefix variant, the empty record is
written successfully (returns true) but reading the converted bucket back
yields no records at all (the zero length frame is taken as the
terminator); in the newline variant, the one-byte record "\n" is written
successfully but reads back as two empty records.  Both refute the exact
round-trip of every successfully written record sequence. -/
theorem C7_counterexample :
    (WriteContent (NewBucket 16 "t") []).1 = true ∧
      (writeAll (NewBucket 16 "t") [[]]).map
        (fun b => ReadContent (bucketToStorage b)) = some [] ∧
      some ([] : List Bytes) ≠ some [([] : Bytes)] ∧
      (NLV.WriteContent (NewBucket 16 "t") [10]).1 = true ∧
      (NLV.writeAll (NewBucket 16 "t") [[10]]).map
        (fun b => NLV.ReadContent (bucketToStorage b)) = some [[], []] ∧
      some [([] : Bytes), []] ≠ some [[10]] := by
  have hlp : writeAll (NewBucket 16 "t") [[]] = some
      { content := [0, 0, 0, 0, 0, 0, 0, 0], topic := "t", hashRate := 0,
        size := 16, id := "", timestamp := 0, used := true } := by decide
  have hrf : readFrames [0, 0, 0, 0, 0, 0, 0, 0] = [] := by
    rw [readFrames]
    norm_num [fromLE_cons, fromLE_nil]
  have hnl : NLV.writeAll (NewBucket 16 "t") [[10]] = some
      { content := [10, 10], topic := "t", hashRate := 0,
        size := 16, id := "", timestamp := 0, used := true } := by decide
  have hrl0 : NLV.readLines [] = [] := by rw [NLV.readLines]; simp
  have hrl1 : NLV.readLines [10] = [[]] := by
    rw [NLV.readLines]
    norm_num [List.dropWhile, List.takeWhile, hrl0]
  have hrl2 : NLV.readLines [10, 10] = [[], []] := by
    rw [NLV.readLines]
    norm_num [List.dropWhile, List.takeWhile, hrl1]
    decide
  refine ⟨by decide, ?_, by decide, by decide, ?_, by decide⟩
  · rw [hlp]
    show some (readFrames [0, 0, 0, 0, 0, 0, 0, 0]) = some []
    rw [hrf]
  · rw [hnl]
    show some (NLV.readLines [10, 10]) = some [[], []]
    rw [hrl2]

/-- C7 amended (length-prefix variant): every sequence of *non-empty*
records (of length below 2^64) successfully written into a fresh bucket is
reproduced exactly, in order, by ReadContent after bucketToStorage; and a
WriteContent call whose record (with its 8-byte frame) would exceed the
remaining capacity returns false and leaves the bucket unchanged. -/
theorem C7_writeRead_amended :
    (∀ (b : Bucket) (rs : List Bytes) (b' : Bucket),
      b.content = [] →
      (∀ r ∈ rs, r ≠ [] ∧ r.length < 2 ^ 64) →
      writeAll b rs = some b' →
      ReadContent (bucketToStorage b') = rs) ∧
    (∀ (b : Bucket) (bs : Bytes),
      b.content.length + bs.length + 8 > b.size →
      WriteContent b bs = (false, b)) := by
  constructor
  · intro b rs b' hempty hr hw
    show readFrames b'.content = rs
    rw [writeAll_content b rs b' hw, hempty]
    simp only [List.nil_append]
    exact readFrames_frames rs hr
  · intro b bs hgt
    unfold WriteContent
    rw [if_pos hgt]

/-- C7 witness: the amended round-trip evaluated on two records, plus a
rejected overfull write. -/
theorem C7_witness :
    ReadContent (bucketToStorage
      { content := [1, 0, 0, 0, 0, 0, 0, 0, 1, 2, 0, 0, 0, 0, 0, 0, 0, 2, 3],
        topic := "t", hashRate := 0, size := 32, id := "", timestamp := 0,
        used := true }) = [[1], [2, 3]] ∧
      WriteContent (NewBucket 5 "t") [1] = (false, NewBucket 5 "t") :=
  ⟨C7_writeRead_amended.1 (NewBucket 32 "t") [[1], [2, 3]] _ rfl
      (by decide) (by decide),
   C7_writeRead_amended.2 (NewBucket 5 "t") [1] (by decide)⟩

/-! ### Pool state lemmas -/

theorem get_state (bp : BucketPool) :
    (bp.get).2.c.length ≤ bp.c.length ∧ (bp.get).2.cap = bp.cap ∧
      (bp.get).2.width = bp.width ∧ (bp.get).2.topic = bp.topic := by
  unfold BucketPool.get
  cases hc : bp.c with
  | nil => exact ⟨by rw [hc], rfl, rfl, rfl⟩
  | cons b rest =>
    dsimp only
    by_cases hu : b.used
    · rw [if_pos hu]
      refine ⟨?_, rfl, rfl, rfl⟩
      simp
    · rw [if_neg hu]
      refine ⟨?_, rfl, rfl, rfl⟩
      simp

theorem put_cases (bp : BucketPool) (b : Bucket) :
    ((bp.put b).1 = true ∧ (bp.put b).2 = { bp with c := bp.c ++ [b] } ∧
      bp.topic = b.topic ∧ bp.c.length < bp.cap) ∨
    ((bp.put b).1 = false ∧ (bp.put b).2 = bp ∧
      (bp.topic ≠ b.topic ∨ ¬bp.c.length < bp.cap)) := by
  unfold BucketPool.put
  by_cases ht : bp.topic ≠ b.topic
  · rw [if_pos ht]
    exact .inr ⟨rfl, rfl, .inl ht⟩
  · rw [if_neg ht]
    by_cases hlen : bp.c.length < bp.cap
    · rw [if_pos hlen]
      exact .inl ⟨rfl, rfl, not_not.1 ht, hlen⟩
    · rw [if_neg hlen]
      exact .inr ⟨rfl, rfl, .inr hlen⟩

theorem applyOps_len_le : ∀ (ops : List PoolOp) (bp : BucketPool),
    bp.c.length ≤ bp.cap →
    (applyOps bp ops).c.length ≤ (applyOps bp ops).cap ∧
      (applyOps bp ops).cap = bp.cap ∧
      (applyOps bp ops).width = bp.width ∧
      (applyOps bp ops).topic = bp.topic
  | [], bp, h => ⟨h, rfl, rfl, rfl⟩
  | op :: ops, bp, h => by
    have hstep : (applyOp bp op).c.length ≤ (applyOp bp op).cap ∧
        (applyOp bp op).cap = bp.cap ∧ (applyOp bp op).width = bp.width ∧
        (applyOp bp op).topic = bp.topic := by
      cases op with
      | get =>
        have hg := get_state bp
        exact ⟨hg.2.1 ▸ le_trans hg.1 h, hg.2.1, hg.2.2.1, hg.2.2.2⟩
      | put b =>
        rcases put_cases bp b with ⟨_, hst, _, hlt⟩ | ⟨_, hst, _⟩
        · have hap : applyOp bp (.put b) = { bp with c := bp.c ++ [b] } := hst
          rw [hap]
          refine ⟨?_, rfl, rfl, rfl⟩
          simp only [List.length_append, List.length_singleton]
          omega
        · have hap : applyOp bp (.put b) = bp := hst
          rw [hap]
          exact ⟨h, rfl, rfl, rfl⟩
    have hrest := applyOps_len_le ops (applyOp bp op) hstep.1
    have hfold : applyOps bp (op :: ops) = applyOps (applyOp bp op) ops := rfl
    rw [hfold]
    exact ⟨hrest.1, hrest.2.1.trans hstep.2.1,
      hrest.2.2.1.trans hstep.2.2.1, hrest.2.2.2.trans hstep.2.2.2⟩

/-- C8: Get on a pool constructed with maxNum = 0 — after any sequence of
single-threaded operations — returns a fresh empty bucket paired with the
exhaustion error; on a one-bucket pool with no intervening Put, the first
Get returns the pooled bucket (an empty bucket of the pool\'s width and
topic) with no error and the second Get returns a fresh bucket with the
exhaustion error. -/
theorem C8_pool_exhaustion (s : Nat) (t : String) (ops : List PoolOp) :
    ((applyOps (NewBucketPool 0 s t) ops).get).1 =
      (NewBucket s t, some exhaustedMsg) ∧
    ((NewBucketPool 1 s t).get).1 = (NewBucket s t, none) ∧
    ((((NewBucketPool 1 s t).get).2).get).1 =
      (NewBucket s t, some exhaustedMsg) := by
  refine ⟨?_, ?_, ?_⟩
  · have hinv := applyOps_len_le ops (NewBucketPool 0 s t)
      (by simp [NewBucketPool])
    have hc : (applyOps (NewBucketPool 0 s t) ops).c = [] := by
      have h1 := hinv.1
      have h2 : (applyOps (NewBucketPool 0 s t) ops).cap = 0 := hinv.2.1
      rw [h2] at h1
      exact List.eq_nil_of_length_eq_zero (by omega)
    unfold BucketPool.get
    rw [hc, hinv.2.2.1, hinv.2.2.2]
    rfl
  · have hone : (NewBucketPool 1 s t).c = [NewBucket s t] := by
      simp [NewBucketPool]
    unfold BucketPool.get
    rw [hone]
    dsimp only
    rw [if_neg (by simp [NewBucket] : ¬(NewBucket s t).used = true)]
  · have hone : (NewBucketPool 1 s t).c = [NewBucket s t] := by
      simp [NewBucketPool]
    have hfirst : ((NewBucketPool 1 s t).get).2 =
        { NewBucketPool 1 s t with c := [] } := by
      unfold BucketPool.get
      rw [hone]
      dsimp only
      rw [if_neg (by simp [NewBucket] : ¬(NewBucket s t).used = true)]
    rw [hfirst]
    unfold BucketPool.get
    rfl

/-- C8 witness: the zero-capacity clause instantiated at a concrete
operation sequence, and the one-bucket double-Get clauses. -/
theorem C8_witness :
    ((applyOps (NewBucketPool 0 8 "t") [.get, .put (NewBucket 8 "t")]).get).1 =
      (NewBucket 8 "t", some exhaustedMsg) ∧
    ((NewBucketPool 1 8 "t").get).1 = (NewBucket 8 "t", none) ∧
    ((((NewBucketPool 1 8 "t").get).2).get).1 =
      (NewBucket 8 "t", some exhaustedMsg) :=
  C8_pool_exhaustion 8 "t" [.get, .put (NewBucket 8 "t")]

/-! ### Claim C9: the StorageBucket type assertion -/

theorem addDup_head (n : NodeS) (tl : List NodeS) :
    ∃ tl2, addDup (n :: tl) = n :: tl2 := by
  unfold addDup
  split
  · refine ⟨tl ++ [NodeS.leafN ((n :: tl).getLastD dfltNode).hash
      ((n :: tl).getLastD dfltNode).content true], ?_⟩
    rw [List.cons_append]
  · exact ⟨tl, rfl⟩

/-- C9: StorageBucket.Equals type-asserts its argument to *StorageBucket,
so with a StorageBucket *value* argument the call panics; MakeTree stores
plain StorageBucket values as leaf contents, so VerifyContent and
GetMerklePath invoked with a StorageBucket value on a MakeTree-built tree
panic during the very first leaf comparison instead of completing. -/
theorem C9_makeTree_storageValue_panics (H : Bytes → Bytes)
    (bp : BucketPool) (t : MerkleTreeS) (bp2 : BucketPool)
    (hmk : MakeTree H bp = (.ok t, bp2)) (sb : SBucket) :
    (∀ sb1 sb2 : SBucket,
      (ContentS.storageBucket sb1).equals (.storageBucket sb2) = .panic) ∧
    VerifyContent H t (.storageBucket sb) = .panic ∧
    GetMerklePath t (.storageBucket sb) = .panic := by
  have hnew : NewTree H
      (bp.c.map (fun b => ContentS.storageBucket (bucketToStorage b))) =
      .ok t := by
    have := congrArg Prod.fst hmk
    simpa [MakeTree] using this
  obtain ⟨ls, hls, hne, hmeq⟩ := NewTree_ok_inv H _ t hnew
  have hf : findFirstEq t.leafs (.storageBucket sb) = .panic := by
    cases hbp : bp.c with
    | nil =>
      rw [hbp] at hne
      simp at hne
    | cons b0 rest =>
      rw [hbp] at hls
      simp only [List.map_cons] at hls
      obtain ⟨hb, tl, hlseq⟩ := buildLeafs_cons_inv H _ _ ls hls
      have hleafs : t.leafs = addDup ls := by rw [hmeq]
      rw [hlseq] at hleafs
      obtain ⟨tl2, hadd⟩ := addDup_head _ tl
      rw [hadd] at hleafs
      rw [hleafs]
      rfl
  refine ⟨fun _ _ => rfl, ?_, ?_⟩
  · unfold VerifyContent
    rw [hf]
  · unfold GetMerklePath
    rw [hf]

/-- C9 witness: the panic observed on the tree MakeTree builds from a
one-bucket pool. -/
theorem C9_witness :
    (∀ sb1 sb2 : SBucket,
      (ContentS.storageBucket sb1).equals (.storageBucket sb2) = .panic) ∧
    VerifyContent Hc c9Tree (.storageBucket sbEx) = .panic ∧
    GetMerklePath c9Tree (.storageBucket sbEx) = .panic :=
  C9_makeTree_storageValue_panics Hc exPool1 c9Tree
    { exPool1 with c := [] }
    (by
      unfold MakeTree
      rw [NewTree_ok_of_all Hc
        (exPool1.c.map (fun b => ContentS.storageBucket (bucketToStorage b)))
        (by decide) (by decide)]
      rfl)
    sbEx

/-- C10: Len equals maxNum right after construction and stays at most
maxNum under any single-threaded Get/Put sequence; Get never increases
Len; Put increases Len by exactly one when it returns true; Put returns
false, leaving the pool unchanged, when the bucket\'s topic differs from
the pool\'s or Len is already at capacity. -/
theorem C10_pool_len_invariants (n s : Nat) (t : String) (b : Bucket)
    (bp : BucketPool) (ops : List PoolOp) :
    (NewBucketPool n s t).len = n ∧
    (applyOps (NewBucketPool n s t) ops).len ≤ n ∧
    ((bp.get).2).len ≤ bp.len ∧
    ((bp.put b).1 = true → ((bp.put b).2).len = bp.len + 1) ∧
    ((b.topic ≠ bp.topic ∨ bp.len = bp.cap) →
      ((bp.put b).1 = false ∧ (bp.put b).2 = bp)) := by
  refine ⟨?_, ?_, ?_, ?_, ?_⟩
  · simp [NewBucketPool, BucketPool.len]
  · have hinv := applyOps_len_le ops (NewBucketPool n s t)
      (by simp [NewBucketPool])
    have h2 : (applyOps (NewBucketPool n s t) ops).cap = n := hinv.2.1
    have h1 := hinv.1
    rw [h2] at h1
    exact h1
  · exact (get_state bp).1
  · intro hput
    rcases put_cases bp b with ⟨_, hst, _, _⟩ | ⟨h1, _, _⟩
    · show ((bp.put b).2).c.length = bp.c.length + 1
      rw [hst]
      simp
    · rw [h1] at hput
      cases hput
  · intro hcond
    rcases put_cases bp b with ⟨_, _, hteq, hlt⟩ | ⟨h1, hst, _⟩
    · rcases hcond with hc | hc
      · exact absurd hteq.symm hc
      · have : bp.c.length = bp.cap := hc
        omega
    · exact ⟨h1, hst⟩

/-- C10 witness: length facts evaluated at a two-bucket pool. -/
theorem C10_witness :
    (NewBucketPool 2 8 "t").len = 2 ∧
      (((((NewBucketPool 2 8 "t").get).2).put (NewBucket 8 "t")).2).len =
        (((NewBucketPool 2 8 "t").get).2).len + 1 ∧
      ((NewBucketPool 2 8 "u").put (NewBucket 8 "t")).1 = false :=
  ⟨(C10_pool_len_invariants 2 8 "t" (NewBucket 8 "t")
      (NewBucketPool 2 8 "t") []).1,
   (C10_pool_len_invariants 2 8 "t" (NewBucket 8 "t")
      (((NewBucketPool 2 8 "t").get).2) []).2.2.2.1 (by decide),
   ((C10_pool_len_invariants 2 8 "u" (NewBucket 8 "t")
      (NewBucketPool 2 8 "u") []).2.2.2.2 (by decide)).1⟩

end Merkletree
